import Mathlib

/-!
Shallow embedding of the PTHash partitioned-PHF core
(`include/builders/internal_memory_builder_partitioned_phf.hpp`,
`include/single_phf.hpp`, `include/partitioned_phf.hpp`) and proofs of the
specified properties.  Machine integers (`uint64_t`) are modelled as `Nat`;
the two `double` configuration parameters `c` and `alpha` and the duration
fields are modelled as exact rationals.
-/

namespace PTHash

/-- A 128-bit hash digest (`hasher_type::hash_type`): its two 64-bit halves
`first`/`second` and the derived `mix()` value.  The concrete hasher is an
external collaborator, so `mixv` is simply carried as data. -/
structure Hash128 where
  first : Nat
  second : Nat
  mixv : Nat
deriving DecidableEq

/-- Modelled from the spec: `fastmod::fastmod_u64(x, M, n)`; the fastmod
header is an external collaborator not under `src/`.  Per the spec
(glossary, Fast-mod) it is an exact constant-time modulus by `n` using a
precomputed reciprocal `M`, so the reciprocal argument is dropped here. -/
def fastmod_u64 (x n : Nat) : Nat := x % n

/-- Modelled from the spec: `uniform_bucketer` (spec 4.2) stores the bucket
count `N` (plus the fastmod reciprocal, dropped); `bucketers.hpp` is not
under `src/`. -/
structure uniform_bucketer where
  num_buckets : Nat
deriving DecidableEq

/-- Modelled from the spec: `uniform_bucketer::bucket(x) = fastmod_u64(x, M, N)`
(spec 4.2). -/
def uniform_bucketer.bucket (b : uniform_bucketer) (x : Nat) : Nat :=
  fastmod_u64 x b.num_buckets

/-- The build configuration (`build_configuration` from `util.hpp`, an
external header; the fields and their meaning are taken from spec 3 and
from their uses inside the source under `src/`).  The `double` fields `c`
and `alpha` are modelled as exact rationals. -/
structure build_configuration where
  c : ℚ
  alpha : ℚ
  minimal_output : Bool
  seed : Nat
  num_partitions : Nat
  num_buckets : Nat
  num_threads : Nat
  verbose_output : Bool
deriving DecidableEq

/-- Partition assignment of one hash: source line
`auto b = m_bucketer.bucket(hash.mix());` where `m_bucketer` was
initialised with `m_bucketer.init(num_partitions)`. -/
def partOf (P : Nat) (h : Hash128) : Nat :=
  (uniform_bucketer.mk P).bucket h.mixv

/-- One step of the partitioning loop of `build_from_hashes`
(`partitions[b].push_back(hash)`). -/
def scatterStep (P : Nat) (parts : List (List Hash128)) (h : Hash128) :
    List (List Hash128) :=
  parts.set (partOf P h) (parts.getD (partOf P h) [] ++ [h])

/-- The partitioning loop of `build_from_hashes`: distribute the hash
stream over `P` initially empty partitions. -/
def scatter (P : Nat) (hashes : List Hash128) : List (List Hash128) :=
  hashes.foldl (scatterStep P) (List.replicate P [])

/-- Per-partition table size, from the sizing loop of `build_from_hashes`:
`uint64_t table_size = static_cast<double>(partition.size()) / config.alpha;`
truncates the `double` quotient (modelled as the exact rational floor),
then `if ((table_size & (table_size - 1)) == 0) table_size += 1;`. -/
def tableSizeFor (alpha : ℚ) (sz : Nat) : Nat :=
  let table_size : Nat := (⌊(sz : ℚ) / alpha⌋).toNat
  if table_size &&& (table_size - 1) == 0 then table_size + 1 else table_size

/-- One step of the sizing loop of `build_from_hashes`; the state is
`(m_table_size, cumulative_size, m_offsets written so far)` and the input
is one partition's size. -/
def sizingStep (minimal_output : Bool) (alpha : ℚ)
    (st : Nat × Nat × List Nat) (sz : Nat) : Nat × Nat × List Nat :=
  let table_size := tableSizeFor alpha sz
  (st.1 + table_size,
   st.2.1 + (if minimal_output then sz else table_size),
   st.2.2 ++ [st.2.1])

/-- The sizing loop of `build_from_hashes` over the list of partition
sizes; returns the final `(m_table_size, cumulative_size, m_offsets)`. -/
def sizingLoop (minimal_output : Bool) (alpha : ℚ) (sizes : List Nat) :
    Nat × Nat × List Nat :=
  sizes.foldl (sizingStep minimal_output alpha) (0, 0, [])

/-- The offset table `m_offsets` computed by the sizing loop. -/
def offsetsOf (minimal_output : Bool) (alpha : ℚ) (sizes : List Nat) :
    List Nat :=
  (sizingLoop minimal_output alpha sizes).2.2

/-- The derived bucket count for the sub-builders:
`std::ceil((config.c * num_keys) / (num_keys > 1 ? std::log2(num_keys) : 1))`.
The floating-point value `std::log2(num_keys)` is passed in as `log2n`
(it is irrational in general, so it cannot be embedded exactly); the rest
of the arithmetic is modelled exactly over ℚ. -/
def num_buckets_single_phf (c : ℚ) (log2n : ℚ) (num_keys : Nat) : Nat :=
  (⌈(c * num_keys) / (if 1 < num_keys then log2n else 1)⌉).toNat

/-- The configuration handed to every sub-builder by `build_from_hashes`:
the partitioned config with `num_partitions` replaced by the actual count,
`seed` set to `m_seed` (which is `config.seed`), `num_buckets` set to the
truncated quotient of `num_buckets_single_phf` by the partition count,
`verbose_output` cleared and `num_threads` forced to 1. -/
def partition_config (config : build_configuration) (log2n : ℚ)
    (num_partitions num_keys : Nat) : build_configuration :=
  { config with
    num_partitions := num_partitions,
    seed := config.seed,
    num_buckets := num_buckets_single_phf config.c log2n num_keys / num_partitions,
    verbose_output := false,
    num_threads := 1 }

/-- Partition-count collapse at the top of `build_from_hashes`: with
`average_partition_size = num_keys / num_partitions` computed in `double`
(modelled exactly over ℚ), fall back to one partition when the average is
below `min_partition_size` and more than one partition was requested.
`min_partition_size` is a constant of `util.hpp` (not under `src/`), so it
is a parameter here. -/
def actual_num_partitions (min_partition_size : ℚ) (num_keys P : Nat) : Nat :=
  if (num_keys : ℚ) / (P : ℚ) < min_partition_size ∧ 1 < P then 1 else P

/-- The fields of `internal_memory_builder_partitioned_phf` written by
`build_from_hashes`, together with the partition hash lists and the
sub-builder configuration it passes to `build_partitions`. -/
structure partitioned_builder_state where
  m_seed : Nat
  m_num_keys : Nat
  m_table_size : Nat
  m_num_partitions : Nat
  m_bucketer : uniform_bucketer
  m_offsets : List Nat
  partitions : List (List Hash128)
  sub_config : build_configuration
deriving DecidableEq

/-- Functional embedding of
`internal_memory_builder_partitioned_phf::build_from_hashes`.  The thrown
`std::invalid_argument` is an `.error` result: in the source the throw
happens before any member is written, so the error case carries no state
at all.  `min_partition_size` and the floating-point `std::log2(num_keys)`
are parameters (see `actual_num_partitions` and
`num_buckets_single_phf`). -/
def build_from_hashes (min_partition_size log2n : ℚ)
    (hashes : List Hash128) (config : build_configuration) :
    Except String partitioned_builder_state :=
  if config.num_partitions = 0 then
    .error "number of partitions must be > 0"
  else
    let num_partitions :=
      actual_num_partitions min_partition_size hashes.length config.num_partitions
    let partitions := scatter num_partitions hashes
    let sizing := sizingLoop config.minimal_output config.alpha
      (partitions.map List.length)
    .ok { m_seed := config.seed,
          m_num_keys := hashes.length,
          m_table_size := sizing.1,
          m_num_partitions := num_partitions,
          m_bucketer := ⟨num_partitions⟩,
          m_offsets := sizing.2.2,
          partitions := partitions,
          sub_config := partition_config config log2n num_partitions hashes.length }

/-- The queryable state of `single_phf`.  The skew bucketer, the pilot
encoder and the Elias-Fano free-slot mapper are external collaborators:
their `bucket` / `access` operations are abstract function fields (and the
fastmod reciprocal `m_M` is determined by `m_table_size`, so it is not
carried separately). -/
structure single_phf where
  m_seed : Nat
  m_num_keys : Nat
  m_table_size : Nat
  m_bucketer : Nat → Nat
  m_pilots : Nat → Nat
  m_free_slots : Nat → Nat

/-- Embedding of `single_phf::position`.  `Minimal` is the template
parameter and `dh` stands for the external `default_hash64`; the xor of
two 64-bit values is `Nat.xor`, which cannot overflow. -/
def single_phf.position (Minimal : Bool) (dh : Nat → Nat → Nat)
    (f : single_phf) (hash : Hash128) : Nat :=
  let bucket := f.m_bucketer hash.first
  let pilot := f.m_pilots bucket
  let hashed_pilot := dh pilot f.m_seed
  let p := fastmod_u64 (Nat.xor hash.second hashed_pilot) f.m_table_size
  if Minimal then
    (if p < f.m_num_keys then p else f.m_free_slots (p - f.m_num_keys))
  else p

/-- The query procedure exactly as the spec words it (spec 4.4, steps 2-7):
`bucket = bucketer.bucket(h.first())`, `p = pilots.access(bucket)`,
`hp = default_hash64(p, seed)`, `pos = fastmod_u64(h.second XOR hp, M, m)`;
non-minimal returns `pos`; minimal returns `pos` when `pos < n` and
`free_slots.access(pos - n)` otherwise.  To be compared with
`single_phf.position`. -/
def spec_query (Minimal : Bool) (dh : Nat → Nat → Nat)
    (f : single_phf) (h : Hash128) : Nat :=
  let bucket := f.m_bucketer h.first
  let p := f.m_pilots bucket
  let hp := dh p f.m_seed
  let pos := fastmod_u64 (Nat.xor h.second hp) f.m_table_size
  if Minimal then
    (if pos < f.m_num_keys then pos else f.m_free_slots (pos - f.m_num_keys))
  else pos

/-- Embedding of `single_phf::build`: the `Minimal` vs
`config.minimal_output` check throws before any member is written, so the
error case returns no state; on success the function object holds the
builder's fields (field copies; the encoders are abstracted away, so the
copy is the identity on this state). -/
def single_phf.build (Minimal : Bool) (builder : single_phf)
    (config : build_configuration) : Except String single_phf :=
  if Minimal ∧ ¬config.minimal_output then
    .error "Cannot build single_phf<..., ..., true> with minimal_output=false"
  else if ¬Minimal ∧ config.minimal_output then
    .error "Cannot build single_phf<..., ..., false> with minimal_output=true"
  else .ok builder

/-- Embedding of the configuration check at the top of
`partitioned_phf::build`, which likewise throws before any member is
written. -/
def partitioned_phf.build_check (Minimal : Bool)
    (config : build_configuration) : Except String Unit :=
  if Minimal ∧ ¬config.minimal_output then
    .error "Cannot build partitioned_phf<..., ..., true> with minimal_output=false"
  else if ¬Minimal ∧ config.minimal_output then
    .error "Cannot build partitioned_phf<..., ..., false> with minimal_output=true"
  else .ok ()

/-- Embedding of `partitioned_phf::position`:
`auto b = m_bucketer.bucket(hash.mix()); return partitions[b].offset +
partitions[b].f.position(hash);`.  The per-partition single-PHF queries
are abstracted as `f`. -/
def partitioned_position (P : Nat) (offsets : List Nat)
    (f : Nat → Hash128 → Nat) (hash : Hash128) : Nat :=
  let b := partOf P hash
  offsets.getD b 0 + f b hash

/-- The contiguous per-thread partition ranges spawned by
`build_partitions`: `num_partitions_per_thread` (`npt`) indices per
thread, the end clamped to `num_partitions` (`P`); one pair per spawned
thread, in spawn order. -/
def threadRanges (npt P : Nat) : Nat → Nat → List (Nat × Nat)
  | 0, _ => []
  | t + 1, b => (b, min (b + npt) P) :: threadRanges npt P t (min (b + npt) P)

/-- The body run by one thread of `build_partitions`: for every index in
its range, overwrite `builders[idx]` with the builder built from
`partitions[idx]`.  `build idx` stands for
`builders[idx].build_from_hashes(partition.begin(), partition.size(), config)`,
which depends only on the partition at `idx` and the shared read-only
config.  The builders array is modelled as a function from index. -/
def runRange {β : Type} (build : Nat → β) (r : Nat × Nat) (builders : Nat → β) :
    Nat → β :=
  fun j => if r.1 ≤ j ∧ j < r.2 then build j else builders j

/-- Parallel path of `build_partitions`: the spawned threads write to
pairwise-disjoint contiguous index ranges of the shared builders array, so
their execution is modelled by running the ranges in sequence. -/
def build_partitions_parallel {β : Type} (build : Nat → β) (P num_threads : Nat)
    (builders : Nat → β) : Nat → β :=
  let npt := (P + num_threads - 1) / num_threads
  (threadRanges npt P num_threads 0).foldl
    (fun bs r => runRange build r bs) builders

/-- Sequential path of `build_partitions` (`num_threads <= 1`). -/
def build_partitions_sequential {β : Type} (build : Nat → β) (P : Nat)
    (builders : Nat → β) : Nat → β :=
  (List.range P).foldl (fun bs i => fun j => if j = i then build i else bs j)
    builders

/-- Dispatch of `build_partitions` on `num_threads`. -/
def build_partitions {β : Type} (build : Nat → β) (P num_threads : Nat)
    (builders : Nat → β) : Nat → β :=
  if 1 < num_threads then build_partitions_parallel build P num_threads builders
  else build_partitions_sequential build P builders

/-- Timing aggregation of `build_partitions` for one of its two duration
fields (`mapping_ordering_seconds` or `searching_seconds`), with the
per-partition durations `d` treated as given inputs (`double` seconds,
modelled as ℚ).  Parallel path: each thread sums the durations of its
partitions, then the report keeps the largest thread total
(`if (t.x > timings.x) timings.x = t.x;`, starting from zero).  Sequential
path: the plain sum over all partitions. -/
def reported_timing (d : Nat → ℚ) (P num_threads : Nat) : ℚ :=
  if 1 < num_threads then
    let npt := (P + num_threads - 1) / num_threads
    ((threadRanges npt P num_threads 0).map
        (fun r => ∑ j ∈ Finset.Ico r.1 r.2, d j)).foldl
      (fun acc t => if acc < t then t else acc) 0
  else ∑ j ∈ Finset.Ico 0 P, d j

/-- Per-partition table size as the spec words it (spec 4.6):
`m_i = ceil(size/alpha)`, adjusted by +1 if a power of two.  To be
compared with `tableSizeFor`. -/
def spec_table_size (alpha : ℚ) (sz : Nat) : Nat :=
  let t : Nat := (⌈(sz : ℚ) / alpha⌉).toNat
  if ∃ k ≤ t, t = 2 ^ k then t + 1 else t

/-! ### Helper lemmas about the partitioning and sizing loops -/

/-- The partition index of every hash is below the partition count. -/
theorem partOf_lt {P : Nat} (hP : 0 < P) (h : Hash128) : partOf P h < P :=
  Nat.mod_lt _ hP

/-- One scatter step keeps the number of partitions. -/
theorem scatterStep_length (P : Nat) (parts : List (List Hash128)) (h : Hash128) :
    (scatterStep P parts h).length = parts.length := by
  simp [scatterStep]

/-- The scatter fold keeps the number of partitions. -/
theorem scatter_foldl_length (P : Nat) (hs : List Hash128)
    (acc : List (List Hash128)) :
    (hs.foldl (scatterStep P) acc).length = acc.length := by
  induction hs generalizing acc with
  | nil => rfl
  | cons h t ih => rw [List.foldl_cons, ih, scatterStep_length]

/-- `scatter` produces exactly `P` partitions. -/
theorem scatter_length (P : Nat) (hs : List Hash128) :
    (scatter P hs).length = P := by
  simp [scatter, scatter_foldl_length]

/-- Each partition accumulated by the scatter fold receives exactly the
hashes of its fiber, appended in stream order. -/
theorem scatter_foldl_getD (P : Nat) (hs : List Hash128) (i : Nat)
    (hi : i < P) :
    ∀ (acc : List (List Hash128)), acc.length = P →
      (hs.foldl (scatterStep P) acc).getD i [] =
        acc.getD i [] ++ hs.filter (fun h => partOf P h = i) := by
  induction hs with
  | nil => intro acc _; simp
  | cons h t ih =>
    intro acc hlen
    rw [List.foldl_cons, ih _ (by rw [scatterStep_length, hlen])]
    have hbP : partOf P h < acc.length := by rw [hlen]; exact partOf_lt (by omega) h
    by_cases hb : partOf P h = i
    · subst hb
      rw [List.filter_cons_of_pos (by simp)]
      rw [show (scatterStep P acc h).getD (partOf P h) [] = acc.getD (partOf P h) [] ++ [h] by
        simp [scatterStep, List.getD_eq_getElem?_getD, List.getElem?_set_self hbP]]
      simp
    · rw [List.filter_cons_of_neg (by simp [hb])]
      rw [show (scatterStep P acc h).getD i [] = acc.getD i [] by
        simp [scatterStep, List.getD_eq_getElem?_getD,
          List.getElem?_set_ne (fun hc => hb hc)]]

/-- `scatter P hashes` at index `i < P` is the fiber of `i` under the
partition assignment. -/
theorem scatter_getD (P : Nat) (hs : List Hash128) (i : Nat) (hi : i < P) :
    (scatter P hs).getD i [] = hs.filter (fun h => partOf P h = i) := by
  rw [scatter, scatter_foldl_getD P hs i hi _ (List.length_replicate _ _)]
  simp [List.getD_eq_getElem?_getD]

/-- The partition sizes sum to the number of keys: every key lands in
exactly one of the `P` fibers. -/
theorem length_eq_sum_filter_partOf (P : Nat) (hP : 0 < P) (hs : List Hash128) :
    hs.length = ∑ i ∈ Finset.range P, (hs.filter (fun h => partOf P h = i)).length := by
  induction hs with
  | nil => simp
  | cons h t ih =>
    have hmem : partOf P h ∈ Finset.range P := Finset.mem_range.mpr (partOf_lt hP h)
    calc (h :: t).length = 1 + t.length := by rw [List.length_cons]; omega
      _ = (∑ i ∈ Finset.range P, if partOf P h = i then 1 else 0)
            + ∑ i ∈ Finset.range P, (t.filter (fun x => partOf P x = i)).length := by
          rw [← ih, Finset.sum_ite_eq (Finset.range P) (partOf P h) (fun _ => 1)]
          simp [hmem]
      _ = ∑ i ∈ Finset.range P, ((h :: t).filter (fun x => partOf P x = i)).length := by
          rw [← Finset.sum_add_distrib]
          refine Finset.sum_congr rfl (fun i _ => ?_)
          by_cases hb : partOf P h = i
          · rw [List.filter_cons_of_pos (by simp [hb])]; simp [hb]; omega
          · rw [List.filter_cons_of_neg (by simp [hb])]; simp [hb]

/-- The weight a partition adds to `cumulative_size` in the sizing loop:
its key count when `minimal_output`, its table size otherwise. -/
def sizingWeight (minimal_output : Bool) (alpha : ℚ) (sz : Nat) : Nat :=
  if minimal_output then sz else tableSizeFor alpha sz

/-- The first component of the sizing fold accumulates the per-partition
table sizes. -/
theorem sizingLoop_foldl_fst (m : Bool) (a : ℚ) (sizes : List Nat) :
    ∀ st : Nat × Nat × List Nat,
      (sizes.foldl (sizingStep m a) st).1 = st.1 + (sizes.map (tableSizeFor a)).sum := by
  induction sizes with
  | nil => intro st; simp
  | cons sz t ih =>
    intro st
    rw [List.foldl_cons, ih]
    simp [sizingStep]
    omega

/-- The offsets written by the sizing fold are the running values of
`cumulative_size`, i.e. prefix sums of the weights. -/
theorem sizingLoop_foldl_offsets (m : Bool) (a : ℚ) (sizes : List Nat) :
    ∀ st : Nat × Nat × List Nat,
      (sizes.foldl (sizingStep m a) st).2.2 =
        st.2.2 ++ (List.range sizes.length).map
          (fun i => st.2.1 + ∑ j ∈ Finset.range i, sizingWeight m a (sizes.getD j 0)) := by
  induction sizes with
  | nil => intro st; simp
  | cons sz t ih =>
    intro st
    rw [List.foldl_cons, ih]
    rw [List.length_cons, List.range_succ_eq_map, List.map_cons, List.map_map]
    rw [show st.2.1 + ∑ j ∈ Finset.range 0,
          sizingWeight m a ((sz :: t).getD j 0) = st.2.1 by simp]
    rw [show (sizingStep m a st sz).2.2 = st.2.2 ++ [st.2.1] from rfl]
    rw [List.append_assoc, List.singleton_append]
    congr 1
    congr 1
    refine List.map_congr_left (fun i _ => ?_)
    rw [Function.comp_apply, Finset.sum_range_succ']
    have h0 : (sizingStep m a st sz).2.1 = st.2.1 + sizingWeight m a sz := rfl
    simp [h0]
    omega

/-- `m_offsets` has one entry per partition. -/
theorem offsetsOf_length (m : Bool) (a : ℚ) (sizes : List Nat) :
    (offsetsOf m a sizes).length = sizes.length := by
  rw [offsetsOf, sizingLoop, sizingLoop_foldl_offsets]
  simp

/-- `m_offsets[i]` is the prefix sum of the weights of the partitions
before `i`. -/
theorem offsetsOf_getD (m : Bool) (a : ℚ) (sizes : List Nat) (i : Nat)
    (hi : i < sizes.length) :
    (offsetsOf m a sizes).getD i 0 =
      ∑ j ∈ Finset.range i, sizingWeight m a (sizes.getD j 0) := by
  rw [offsetsOf, sizingLoop, sizingLoop_foldl_offsets]
  rw [List.nil_append, List.getD_eq_getElem?_getD, List.getElem?_map,
    List.getElem?_range hi]
  simp

/-! ### Tiling of the output range by per-partition blocks -/

/-- Locate a value under the total of a prefix-sum tiling: every `v` below
the total falls inside the block of exactly some `i < P`. -/
theorem prefix_sum_locate (cnt : Nat → Nat) (P v : Nat)
    (hv : v < ∑ j ∈ Finset.range P, cnt j) :
    ∃ i, i < P ∧ (∑ j ∈ Finset.range i, cnt j) ≤ v ∧
      v < (∑ j ∈ Finset.range i, cnt j) + cnt i := by
  induction P with
  | zero => simp at hv
  | succ P ih =>
    by_cases hlt : v < ∑ j ∈ Finset.range P, cnt j
    · obtain ⟨i, hi, h1, h2⟩ := ih hlt
      exact ⟨i, Nat.lt_succ_of_lt hi, h1, h2⟩
    · refine ⟨P, Nat.lt_succ_self P, Nat.le_of_not_lt hlt, ?_⟩
      rw [Finset.sum_range_succ] at hv
      exact hv

/-- A block of the prefix-sum tiling ends no later than the total. -/
theorem prefix_sum_block_le (cnt : Nat → Nat) {i P : Nat} (hi : i < P) :
    (∑ j ∈ Finset.range i, cnt j) + cnt i ≤ ∑ j ∈ Finset.range P, cnt j := by
  rw [← Finset.sum_range_succ]
  exact Finset.sum_le_sum_of_subset (Finset.range_subset.mpr hi)

/-- Tiling bijection: when every fiber of `idx` is mapped bijectively onto
the range of its own size, offsetting each fiber by the prefix sum of the
preceding fiber sizes maps the whole set onto the range of the total. -/
theorem tiling_image_eq {α : Type} [DecidableEq α] (S : Finset α) (P : Nat)
    (idx : α → Nat) (f : Nat → α → Nat)
    (hidx : ∀ x ∈ S, idx x < P)
    (hbij : ∀ i, i < P →
      Finset.image (f i) (S.filter (fun x => idx x = i))
        = Finset.range ((S.filter (fun x => idx x = i)).card)) :
    Finset.image (fun x =>
        (∑ j ∈ Finset.range (idx x), (S.filter (fun y => idx y = j)).card)
          + f (idx x) x) S
      = Finset.range S.card := by
  have htot : S.card = ∑ j ∈ Finset.range P, (S.filter (fun y => idx y = j)).card :=
    Finset.card_eq_sum_card_fiberwise (fun x hx => Finset.mem_range.mpr (hidx x hx))
  apply Finset.Subset.antisymm
  · intro v hv
    obtain ⟨x, hxS, rfl⟩ := Finset.mem_image.mp hv
    have hfx : f (idx x) x < (S.filter (fun y => idx y = idx x)).card := by
      have hmem : x ∈ S.filter (fun y => idx y = idx x) :=
        Finset.mem_filter.mpr ⟨hxS, rfl⟩
      have himg := Finset.mem_image_of_mem (f (idx x)) hmem
      rw [hbij (idx x) (hidx x hxS)] at himg
      exact Finset.mem_range.mp himg
    have hblock : (∑ j ∈ Finset.range (idx x), (S.filter (fun y => idx y = j)).card)
          + (S.filter (fun y => idx y = idx x)).card
        ≤ ∑ j ∈ Finset.range P, (S.filter (fun y => idx y = j)).card :=
      prefix_sum_block_le (fun j => (S.filter (fun y => idx y = j)).card) (hidx x hxS)
    refine Finset.mem_range.mpr ?_
    rw [htot]
    omega
  · intro v hv
    have hvlt : v < ∑ j ∈ Finset.range P, (S.filter (fun y => idx y = j)).card := by
      rw [← htot]
      exact Finset.mem_range.mp hv
    obtain ⟨i, hiP, hle, hlt⟩ : ∃ i, i < P
        ∧ (∑ j ∈ Finset.range i, (S.filter (fun y => idx y = j)).card) ≤ v
        ∧ v < (∑ j ∈ Finset.range i, (S.filter (fun y => idx y = j)).card)
            + (S.filter (fun y => idx y = i)).card :=
      prefix_sum_locate (fun j => (S.filter (fun y => idx y = j)).card) P v hvlt
    have hmem : v - (∑ j ∈ Finset.range i, (S.filter (fun y => idx y = j)).card)
        ∈ Finset.range ((S.filter (fun y => idx y = i)).card) := by
      refine Finset.mem_range.mpr ?_
      omega
    rw [← hbij i hiP] at hmem
    obtain ⟨x, hxfil, hfx⟩ := Finset.mem_image.mp hmem
    obtain ⟨hxS, hxi⟩ := Finset.mem_filter.mp hxfil
    refine Finset.mem_image.mpr ⟨x, hxS, ?_⟩
    rw [hxi, hfx]
    omega

/-! ### Claim theorems -/

/-- C2: every `single_phf` query on a hash returns exactly the value of
the specified procedure: `bucket = bucketer.bucket(h.first)`,
`pilot = pilots.access(bucket)`,
`pos = fastmod_u64(h.second XOR default_hash64(pilot, seed), M, m)`;
a non-minimal function returns `pos`, and a minimal one returns `pos`
when `pos < n` and `free_slots.access(pos - n)` otherwise. -/
theorem single_phf_position_follows_spec (Minimal : Bool)
    (dh : Nat → Nat → Nat) (f : single_phf) (h : Hash128) :
    single_phf.position Minimal dh f h = spec_query Minimal dh f h := rfl

/-- C7: invalid configurations are rejected before any state is produced:
`num_partitions = 0` makes the partitioned builder throw, and a `Minimal`
template / `config.minimal_output` mismatch makes `single_phf::build` and
`partitioned_phf::build` throw; in the embedding the error result carries
no state, mirroring that the throws precede every member write, so no
partial function is observable. -/
theorem invalid_config_rejected (mps log2n : ℚ) (hashes : List Hash128)
    (config : build_configuration) (Minimal : Bool) (b : single_phf) :
    (config.num_partitions = 0 →
      build_from_hashes mps log2n hashes config
        = .error "number of partitions must be > 0")
    ∧ (Minimal ≠ config.minimal_output →
        ∃ e, single_phf.build Minimal b config = .error e)
    ∧ (Minimal ≠ config.minimal_output →
        ∃ e, partitioned_phf.build_check Minimal config = .error e) := by
  refine ⟨fun h0 => by rw [build_from_hashes, if_pos h0], fun hm => ?_, fun hm => ?_⟩
  · cases Minimal <;> cases hc : config.minimal_output <;>
      simp_all [single_phf.build]
  · cases Minimal <;> cases hc : config.minimal_output <;>
      simp_all [partitioned_phf.build_check]

/-- Witness for C7 at two concrete configurations: one with zero
partitions, one with a minimality mismatch. -/
theorem invalid_config_rejected_witness :
    build_from_hashes 1 1 [] ⟨1, 1, true, 0, 0, 0, 1, false⟩
        = .error "number of partitions must be > 0"
    ∧ (∃ e, single_phf.build true ⟨0, 0, 0, id, id, id⟩
        ⟨1, 1, false, 0, 1, 0, 1, false⟩ = .error e) :=
  ⟨(invalid_config_rejected 1 1 [] ⟨1, 1, true, 0, 0, 0, 1, false⟩ true
      ⟨0, 0, 0, id, id, id⟩).1 rfl,
   (invalid_config_rejected 1 1 [] ⟨1, 1, false, 0, 1, 0, 1, false⟩ true
      ⟨0, 0, 0, id, id, id⟩).2.1 (by decide)⟩

/-- C5: when more than one partition is requested the build succeeds, and
the partition count collapses to 1 exactly when the average partition size
`n / P` is below `min_partition_size`; the collapsed value is what
`num_partitions()` reports (`m_num_partitions`), what sizes the partition
bucketer, and how many partitions are materialised. -/
theorem partition_count_collapse (mps log2n : ℚ) (hashes : List Hash128)
    (config : build_configuration) (hP : 1 < config.num_partitions) :
    (build_from_hashes mps log2n hashes config).map
        (fun st => (st.m_num_partitions, st.m_bucketer.num_buckets,
                    st.partitions.length))
      = .ok (actual_num_partitions mps hashes.length config.num_partitions,
             actual_num_partitions mps hashes.length config.num_partitions,
             actual_num_partitions mps hashes.length config.num_partitions)
    ∧ actual_num_partitions mps hashes.length config.num_partitions
      = (if (hashes.length : ℚ) / (config.num_partitions : ℚ) < mps then 1
         else config.num_partitions) := by
  constructor
  · have h0 : ¬ config.num_partitions = 0 := by omega
    simp [build_from_hashes, h0, Except.map, scatter_length]
  · rw [actual_num_partitions]
    by_cases hc : (hashes.length : ℚ) / (config.num_partitions : ℚ) < mps
    · rw [if_pos ⟨hc, hP⟩, if_pos hc]
    · rw [if_neg (fun hand => hc hand.1), if_neg hc]

/-- Witness for C5: one key over four requested partitions with
`min_partition_size = 50000` collapses to a single partition. -/
theorem partition_count_collapse_witness :
    (build_from_hashes 50000 1 [⟨1, 2, 3⟩] ⟨1, 1, true, 0, 4, 0, 1, false⟩).map
        (fun st => (st.m_num_partitions, st.m_bucketer.num_buckets,
                    st.partitions.length))
      = .ok (actual_num_partitions 50000 1 4,
             actual_num_partitions 50000 1 4,
             actual_num_partitions 50000 1 4)
    ∧ actual_num_partitions 50000 1 4
      = (if (1 : ℚ) / (4 : ℚ) < 50000 then 1 else 4) :=
  partition_count_collapse 50000 1 [⟨1, 2, 3⟩] ⟨1, 1, true, 0, 4, 0, 1, false⟩
    (by decide)

/-- C8 (amended): every successful partitioned build hands each sub-builder
a configuration with `num_threads = 1`, verbose output disabled, the
partitioned builder's own seed, `num_partitions` set to the final
partition count `P`, and
`num_buckets = floor(ceil(c * n / log2max(n)) / P)` with no lower clamp
(the value is 0 whenever the ceiling is below `P`). -/
theorem sub_builder_config (mps log2n : ℚ) (hashes : List Hash128)
    (config : build_configuration) (h0 : config.num_partitions ≠ 0) :
    (build_from_hashes mps log2n hashes config).map
        (fun st => (st.sub_config.num_threads, st.sub_config.verbose_output,
                    st.sub_config.seed, st.sub_config.num_partitions,
                    st.sub_config.num_buckets, st.m_num_partitions))
      = .ok (1, false, config.seed,
             actual_num_partitions mps hashes.length config.num_partitions,
             num_buckets_single_phf config.c log2n hashes.length
               / actual_num_partitions mps hashes.length config.num_partitions,
             actual_num_partitions mps hashes.length config.num_partitions) := by
  simp [build_from_hashes, h0, Except.map, partition_config]

/-- Witness for C8 at a concrete successful build. -/
theorem sub_builder_config_witness :
    (build_from_hashes 50000 1 [⟨1, 2, 3⟩] ⟨6, 1, true, 9, 4, 0, 8, true⟩).map
        (fun st => (st.sub_config.num_threads, st.sub_config.verbose_output,
                    st.sub_config.seed, st.sub_config.num_partitions,
                    st.sub_config.num_buckets, st.m_num_partitions))
      = .ok (1, false, 9, actual_num_partitions 50000 1 4,
             num_buckets_single_phf 6 1 1 / actual_num_partitions 50000 1 4,
             actual_num_partitions 50000 1 4) :=
  sub_builder_config 50000 1 [⟨1, 2, 3⟩] ⟨6, 1, true, 9, 4, 0, 8, true⟩
    (by decide)

/-- C8 counterexample: a build in which the sub-builder receives
`num_buckets = 0`, refuting the claimed lower bound of 1.  With `c = 1/64`
and four keys (so the divisor is `log2 4 = 2`, an exactly representable
value) the requested two partitions are kept (average size 2 is not below
the given `min_partition_size = 1`), `ceil(c*n / log2 n) = ceil(1/32) = 1`,
and the truncated quotient `1 / 2` is 0. -/
theorem sub_builder_config_counterexample :
    (build_from_hashes 1 2 [⟨0, 0, 0⟩, ⟨0, 0, 1⟩, ⟨0, 0, 2⟩, ⟨0, 0, 3⟩]
        ⟨1/64, 1, true, 0, 2, 0, 1, false⟩).map
        (fun st => st.sub_config.num_buckets)
      = .ok 0 := by
  have hap : actual_num_partitions 1 4 2 = 2 := by
    rw [actual_num_partitions, if_neg]
    rintro ⟨hlt, -⟩
    norm_num at hlt
  have hceil : (⌈((1 : ℚ)/64 * (4 : Nat)) / (if 1 < (4 : Nat) then (2 : ℚ) else 1)⌉) = 1 := by
    rw [if_pos (by norm_num)]
    rw [Int.ceil_eq_iff]
    norm_num
  have hnb : num_buckets_single_phf (1/64) 2 4 = 1 := by
    rw [num_buckets_single_phf, hceil]
    rfl
  simp only [build_from_hashes, Except.map, partition_config,
    List.length_cons, List.length_nil]
  norm_num [hap, hnb]

/-! ### The power-of-two bit test -/

/-- Bit-level identity behind the sizing adjustment: for positive `s`,
`(2s) AND (2s - 1) = 2 (s AND (s - 1))`. -/
theorem land_double_pred (s : Nat) (hs : 0 < s) :
    (2 * s) &&& (2 * s - 1) = 2 * (s &&& (s - 1)) := by
  apply Nat.eq_of_testBit_eq
  intro i
  cases i with
  | zero =>
    rw [Nat.testBit_land, Nat.testBit_zero, Nat.testBit_zero]
    simp [Nat.mul_mod_right]
  | succ i =>
    rw [Nat.testBit_land, Nat.testBit_succ, Nat.testBit_succ, Nat.testBit_succ,
      Nat.mul_div_cancel_left s (by norm_num), Nat.mul_div_cancel_left _ (by norm_num),
      show (2 * s - 1) / 2 = s - 1 by omega, Nat.testBit_land]

/-- Bit-level identity behind the sizing adjustment: `(2s+1) AND (2s) = 2s`. -/
theorem land_odd_pred (s : Nat) : (2 * s + 1) &&& (2 * s) = 2 * s := by
  apply Nat.eq_of_testBit_eq
  intro i
  cases i with
  | zero =>
    rw [Nat.testBit_land, Nat.testBit_zero, Nat.testBit_zero]
    simp [Nat.mul_mod_right]
  | succ i =>
    rw [Nat.testBit_land, Nat.testBit_succ, Nat.testBit_succ,
      show (2 * s + 1) / 2 = s by omega,
      Nat.mul_div_cancel_left s (by norm_num), Bool.and_self]

/-- The test `(t & (t - 1)) == 0` of the sizing loop passes exactly at 0
and at the powers of two. -/
theorem land_pred_eq_zero_iff (t : Nat) :
    t &&& (t - 1) = 0 ↔ t = 0 ∨ ∃ k, t = 2 ^ k := by
  induction t using Nat.strong_induction_on with
  | _ t ih =>
    rcases Nat.eq_zero_or_pos t with h0 | hpos
    · subst h0; simp
    rcases Nat.even_or_odd t with ⟨s, hs⟩ | ⟨s, hs⟩
    · have hs2 : t = 2 * s := by omega
      have hspos : 0 < s := by omega
      subst hs2
      rw [land_double_pred s hspos]
      constructor
      · intro h
        have hsz : s &&& (s - 1) = 0 := by omega
        rcases (ih s (by omega)).mp hsz with h0 | ⟨k, hk⟩
        · omega
        · exact Or.inr ⟨k + 1, by rw [hk]; ring⟩
      · rintro (h | ⟨k, hk⟩)
        · omega
        · match k with
          | 0 => omega
          | k + 1 =>
            have hsk : s = 2 ^ k := by
              rw [pow_succ] at hk; omega
            have hsz : s &&& (s - 1) = 0 := (ih s (by omega)).mpr (Or.inr ⟨k, hsk⟩)
            omega
    · subst hs
      rw [show 2 * s + 1 - 1 = 2 * s by omega, land_odd_pred s]
      constructor
      · intro h
        exact Or.inr ⟨0, by omega⟩
      · rintro (h | ⟨k, hk⟩)
        · omega
        · match k with
          | 0 => omega
          | k + 1 => rw [pow_succ] at hk; omega

/-- A list sum of naturals as a `Finset.range` sum of its entries. -/
theorem list_sum_eq_sum_getD (l : List Nat) :
    l.sum = ∑ i ∈ Finset.range l.length, l.getD i 0 := by
  induction l with
  | nil => simp
  | cons a t ih =>
    rw [List.sum_cons, ih, List.length_cons, Finset.sum_range_succ']
    simp [Nat.add_comm]

/-- The collapsed partition count is positive whenever the requested one
is nonzero. -/
theorem actual_num_partitions_pos (mps : ℚ) (n P : Nat) (hP : P ≠ 0) :
    0 < actual_num_partitions mps n P := by
  rw [actual_num_partitions]
  split <;> omega

/-- Reading an entry of the mapped length list. -/
theorem getD_map_length (l : List (List Hash128)) (j : Nat) :
    (l.map List.length).getD j 0 = (l.getD j []).length := by
  rw [List.getD_eq_getElem?_getD, List.getD_eq_getElem?_getD, List.getElem?_map]
  cases l[j]? <;> rfl

/-- The sizing adjustment characterised arithmetically: the truncated
quotient is incremented exactly when it is 0 or a power of two. -/
theorem tableSizeFor_eq_pow_two_adjust (alpha : ℚ) (sz : Nat) :
    tableSizeFor alpha sz
      = (if (⌊(sz : ℚ) / alpha⌋).toNat = 0
            ∨ ∃ k ≤ (⌊(sz : ℚ) / alpha⌋).toNat, (⌊(sz : ℚ) / alpha⌋).toNat = 2 ^ k
         then (⌊(sz : ℚ) / alpha⌋).toNat + 1
         else (⌊(sz : ℚ) / alpha⌋).toNat) := by
  simp only [tableSizeFor]
  by_cases h : (⌊(sz : ℚ) / alpha⌋).toNat &&& ((⌊(sz : ℚ) / alpha⌋).toNat - 1) = 0
  · have hc : (⌊(sz : ℚ) / alpha⌋).toNat = 0
        ∨ ∃ k ≤ (⌊(sz : ℚ) / alpha⌋).toNat, (⌊(sz : ℚ) / alpha⌋).toNat = 2 ^ k := by
      rcases (land_pred_eq_zero_iff _).mp h with h0 | ⟨k, hk⟩
      · exact Or.inl h0
      · exact Or.inr ⟨k, by rw [hk]; exact (Nat.lt_two_pow k).le, hk⟩
    rw [if_pos (by simpa using h), if_pos hc]
  · have hc : ¬ ((⌊(sz : ℚ) / alpha⌋).toNat = 0
        ∨ ∃ k ≤ (⌊(sz : ℚ) / alpha⌋).toNat, (⌊(sz : ℚ) / alpha⌋).toNat = 2 ^ k) := by
      rintro (h0 | ⟨k, -, hk⟩)
      · exact h ((land_pred_eq_zero_iff _).mpr (Or.inl h0))
      · exact h ((land_pred_eq_zero_iff _).mpr (Or.inr ⟨k, hk⟩))
    rw [if_neg (by simpa using h), if_neg hc]

/-- Every per-partition table size is at least 1: the truncated quotient
is adjusted away from 0, and unadjusted values are nonzero. -/
theorem tableSizeFor_pos (alpha : ℚ) (sz : Nat) : 1 ≤ tableSizeFor alpha sz := by
  simp only [tableSizeFor]
  by_cases h : (⌊(sz : ℚ) / alpha⌋).toNat &&& ((⌊(sz : ℚ) / alpha⌋).toNat - 1) = 0
  · rw [if_pos (by simpa using h)]
    omega
  · rw [if_neg (by simpa using h)]
    rcases Nat.eq_zero_or_pos (⌊(sz : ℚ) / alpha⌋).toNat with h0 | hpos
    · exact absurd ((land_pred_eq_zero_iff _).mpr (Or.inl h0)) h
    · exact hpos

/-- C4 (amended): each partition's table size is the truncated quotient
`floor(size / alpha)` (the `double`-to-`uint64_t` cast truncates; not the
spec's ceiling), incremented by 1 exactly when that truncated value is 0
or a power of two, and the reported global `table_size()` is the sum of
the per-partition table sizes. -/
theorem table_size_truncated_sum (mps log2n : ℚ) (hashes : List Hash128)
    (config : build_configuration) (h0 : config.num_partitions ≠ 0) :
    (build_from_hashes mps log2n hashes config).map (fun st => st.m_table_size)
      = .ok (((scatter (actual_num_partitions mps hashes.length
                  config.num_partitions) hashes).map
              (fun part => tableSizeFor config.alpha part.length)).sum)
    ∧ ∀ alpha : ℚ, ∀ sz : Nat,
        tableSizeFor alpha sz
          = (if (⌊(sz : ℚ) / alpha⌋).toNat = 0
                ∨ ∃ k ≤ (⌊(sz : ℚ) / alpha⌋).toNat, (⌊(sz : ℚ) / alpha⌋).toNat = 2 ^ k
             then (⌊(sz : ℚ) / alpha⌋).toNat + 1
             else (⌊(sz : ℚ) / alpha⌋).toNat) := by
  constructor
  · simp only [build_from_hashes, h0, if_false, Except.map]
    congr 1
    rw [sizingLoop, sizingLoop_foldl_fst, List.map_map]
    simp only [Nat.zero_add]
    rfl
  · intro alpha sz
    exact tableSizeFor_eq_pow_two_adjust alpha sz

/-- Witness for C4 at a concrete successful build. -/
theorem table_size_truncated_sum_witness :
    (build_from_hashes 50000 1 [⟨1, 2, 3⟩] ⟨1, 1, true, 0, 4, 0, 1, false⟩).map
        (fun st => st.m_table_size)
      = .ok (((scatter (actual_num_partitions 50000 1 4) [⟨1, 2, 3⟩]).map
              (fun part => tableSizeFor 1 part.length)).sum)
    ∧ ∀ alpha : ℚ, ∀ sz : Nat,
        tableSizeFor alpha sz
          = (if (⌊(sz : ℚ) / alpha⌋).toNat = 0
                ∨ ∃ k ≤ (⌊(sz : ℚ) / alpha⌋).toNat, (⌊(sz : ℚ) / alpha⌋).toNat = 2 ^ k
             then (⌊(sz : ℚ) / alpha⌋).toNat + 1
             else (⌊(sz : ℚ) / alpha⌋).toNat) :=
  table_size_truncated_sum 50000 1 [⟨1, 2, 3⟩] ⟨1, 1, true, 0, 4, 0, 1, false⟩
    (by decide)

/-- C4 counterexample: with `alpha = 47/50` (0.94) and a partition of 10
keys the source computes the truncated `floor(10 / 0.94) = 10` (kept, not
a power of two), while the claimed `ceil(10 / 0.94) = 11`. -/
theorem table_size_counterexample :
    tableSizeFor (47/50) 10 = 10 ∧ spec_table_size (47/50) 10 = 11 := by
  constructor
  · have hf : ⌊((10 : Nat) : ℚ) / (47/50)⌋ = 10 := by
      rw [Int.floor_eq_iff]
      norm_num
    simp only [tableSizeFor, hf]
    decide
  · have hc : ⌈((10 : Nat) : ℚ) / (47/50)⌉ = 11 := by
      rw [Int.ceil_eq_iff]
      norm_num
    simp only [spec_table_size, hc]
    decide

/-- C3: on every successful partitioned build, `m_offsets[i]` is the
prefix sum over the preceding partitions of their key counts when
`minimal_output` is set and of their table sizes otherwise; and the
per-partition key counts sum to the number of keys. -/
theorem offsets_are_prefix_sums (mps log2n : ℚ) (hashes : List Hash128)
    (config : build_configuration) (st : partitioned_builder_state)
    (hok : build_from_hashes mps log2n hashes config = .ok st) :
    (∀ i, i < st.m_num_partitions →
      st.m_offsets.getD i 0
        = ∑ j ∈ Finset.range i,
            (if config.minimal_output then (st.partitions.getD j []).length
             else tableSizeFor config.alpha (st.partitions.getD j []).length))
    ∧ (st.partitions.map List.length).sum = hashes.length := by
  have h0 : config.num_partitions ≠ 0 := by
    intro h
    rw [build_from_hashes, if_pos h] at hok
    cases hok
  simp only [build_from_hashes, h0, if_false, Except.ok.injEq] at hok
  subst hok
  constructor
  · intro i hi
    simp only at hi ⊢
    have hlen : ((scatter (actual_num_partitions mps hashes.length
          config.num_partitions) hashes).map List.length).length
        = actual_num_partitions mps hashes.length config.num_partitions := by
      rw [List.length_map, scatter_length]
    rw [show (sizingLoop config.minimal_output config.alpha
          ((scatter (actual_num_partitions mps hashes.length
            config.num_partitions) hashes).map List.length)).2.2
        = offsetsOf config.minimal_output config.alpha
          ((scatter (actual_num_partitions mps hashes.length
            config.num_partitions) hashes).map List.length) from rfl]
    rw [offsetsOf_getD _ _ _ i (by rw [hlen]; exact hi)]
    refine Finset.sum_congr rfl (fun j hj => ?_)
    rw [sizingWeight, getD_map_length]
  · simp only
    have hPpos : 0 < actual_num_partitions mps hashes.length config.num_partitions :=
      actual_num_partitions_pos _ _ _ h0
    rw [list_sum_eq_sum_getD, List.length_map, scatter_length]
    calc ∑ j ∈ Finset.range (actual_num_partitions mps hashes.length
            config.num_partitions),
          ((scatter (actual_num_partitions mps hashes.length
              config.num_partitions) hashes).map List.length).getD j 0
        = ∑ j ∈ Finset.range (actual_num_partitions mps hashes.length
            config.num_partitions),
            (hashes.filter (fun h => partOf (actual_num_partitions mps
              hashes.length config.num_partitions) h = j)).length := by
          refine Finset.sum_congr rfl (fun j hj => ?_)
          rw [getD_map_length, scatter_getD _ _ _ (Finset.mem_range.mp hj)]
      _ = hashes.length :=
          (length_eq_sum_filter_partOf _ hPpos hashes).symm

/-- Witness for C3: a concrete one-key build (four requested partitions
collapse to one; `alpha = 1` sizes the single partition at 2). -/
theorem offsets_are_prefix_sums_witness :
    ([0] : List Nat).getD 0 0
      = ∑ j ∈ Finset.range 0, (([[⟨1, 2, 3⟩]] : List (List Hash128)).getD j []).length
    ∧ (([[⟨1, 2, 3⟩]] : List (List Hash128)).map List.length).sum
        = ([⟨1, 2, 3⟩] : List Hash128).length := by
  have hap : actual_num_partitions 50000 1 4 = 1 := by
    rw [actual_num_partitions, if_pos]
    exact ⟨by norm_num, by norm_num⟩
  have hts : tableSizeFor 1 1 = 2 := by
    simp only [tableSizeFor]
    rw [show ((1 : Nat) : ℚ) / 1 = 1 by norm_num, Int.floor_one]
    decide
  have hnb : num_buckets_single_phf 1 1 1 = 1 := by
    rw [num_buckets_single_phf, if_neg (by norm_num)]
    rw [show (1 : ℚ) * ((1 : Nat) : ℚ) / 1 = 1 by norm_num, Int.ceil_one]
    decide
  have hok : build_from_hashes 50000 1 [⟨1, 2, 3⟩] ⟨1, 1, true, 0, 4, 0, 1, false⟩
      = .ok ⟨0, 1, 2, 1, ⟨1⟩, [0], [[⟨1, 2, 3⟩]], ⟨1, 1, true, 0, 1, 1, 1, false⟩⟩ := by
    simp only [build_from_hashes, List.length_cons, List.length_nil]
    rw [if_neg (by decide)]
    rw [show (0 : Nat) + 1 = 1 from rfl] at *
    rw [hap]
    rw [show scatter 1 [(⟨1, 2, 3⟩ : Hash128)] = [[⟨1, 2, 3⟩]] from rfl]
    rw [show ([[(⟨1, 2, 3⟩ : Hash128)]].map List.length) = [1] from rfl]
    rw [show sizingLoop true 1 [1]
        = (0 + tableSizeFor 1 1, 0 + (if true then 1 else tableSizeFor 1 1), [0]) from rfl]
    rw [hts]
    simp only [partition_config, hnb]
  exact ⟨(offsets_are_prefix_sums 50000 1 [⟨1, 2, 3⟩] ⟨1, 1, true, 0, 4, 0, 1, false⟩
      _ hok).1 0 (by decide),
    (offsets_are_prefix_sums 50000 1 [⟨1, 2, 3⟩] ⟨1, 1, true, 0, 4, 0, 1, false⟩
      _ hok).2⟩

/-- C10: an empty partition is sized exactly 1 (its truncated quotient 0
passes the power-of-two bit test and is adjusted); every partition's table
size is at least 1, so every partition contributes at least 1 to the
global table size; with minimal output an empty partition's offset equals
the next partition's offset, and without minimal output consecutive
offsets always differ by at least 1. -/
theorem empty_partition_sizing (alpha : ℚ) (sizes : List Nat) :
    tableSizeFor alpha 0 = 1
    ∧ (∀ sz, 1 ≤ tableSizeFor alpha sz)
    ∧ (∀ i, i + 1 < sizes.length →
        (sizes.getD i 0 = 0 →
          (offsetsOf true alpha sizes).getD (i + 1) 0
            = (offsetsOf true alpha sizes).getD i 0)
        ∧ (offsetsOf false alpha sizes).getD i 0
            < (offsetsOf false alpha sizes).getD (i + 1) 0) := by
  have h1 : tableSizeFor alpha 0 = 1 := by
    simp only [tableSizeFor]
    rw [show ((0 : Nat) : ℚ) = 0 by norm_num, zero_div]
    rw [Int.floor_zero]
    decide
  refine ⟨h1, tableSizeFor_pos alpha, fun i hi1 => ?_⟩
  have hii : i < sizes.length := by omega
  constructor
  · intro hz
    rw [offsetsOf_getD true alpha sizes (i + 1) hi1,
      offsetsOf_getD true alpha sizes i hii, Finset.sum_range_succ, hz]
    simp [sizingWeight]
  · rw [offsetsOf_getD false alpha sizes (i + 1) hi1,
      offsetsOf_getD false alpha sizes i hii, Finset.sum_range_succ]
    have hts := tableSizeFor_pos alpha (sizes.getD i 0)
    simp only [sizingWeight, if_neg Bool.false_ne_true]
    omega

/-- Witness for C10 on the size list `[0, 3]` with `alpha = 1/2`. -/
theorem empty_partition_sizing_witness :
    tableSizeFor (1/2) 0 = 1
    ∧ (∀ sz, 1 ≤ tableSizeFor (1/2) sz)
    ∧ ((([0, 3] : List Nat).getD 0 0 = 0 →
        (offsetsOf true (1/2) [0, 3]).getD 1 0 = (offsetsOf true (1/2) [0, 3]).getD 0 0)
      ∧ (offsetsOf false (1/2) [0, 3]).getD 0 0
          < (offsetsOf false (1/2) [0, 3]).getD 1 0) :=
  ⟨(empty_partition_sizing (1/2) [0, 3]).1,
   (empty_partition_sizing (1/2) [0, 3]).2.1,
   (empty_partition_sizing (1/2) [0, 3]).2.2 0 (by decide)⟩

/-- C1: with minimal output, if every partition's single PHF maps that
partition's keys bijectively onto the range of its own key count, then
the partitioned query `m_offsets[b] + f_b(h)` with `b = bucket(h.mix())`
maps the whole key set bijectively onto `[0, n)`: every key is assigned
to exactly one partition, the minimal offsets are the prefix sums of the
partition sizes, and the per-partition blocks tile `[0, n)` exactly. -/
theorem partitioned_minimal_bijection (P : Nat) (alpha : ℚ)
    (hashes : List Hash128) (f : Nat → Hash128 → Nat)
    (hP : 0 < P) (hnd : hashes.Nodup)
    (hbij : ∀ i, i < P →
      Finset.image (f i) (hashes.toFinset.filter (fun h => partOf P h = i))
        = Finset.range ((hashes.filter (fun h => partOf P h = i)).length)) :
    Finset.image
        (partitioned_position P
          (offsetsOf true alpha ((scatter P hashes).map List.length)) f)
        hashes.toFinset
      = Finset.range hashes.length
    ∧ Set.InjOn
        (partitioned_position P
          (offsetsOf true alpha ((scatter P hashes).map List.length)) f)
        hashes.toFinset := by
  classical
  have hfin : ∀ i : Nat, hashes.toFinset.filter (fun h => partOf P h = i)
      = (hashes.filter (fun h => partOf P h = i)).toFinset := by
    intro i
    rw [List.toFinset_filter]
    refine (Finset.filter_congr (fun x _ => ?_)).symm
    simp
  have hcard : ∀ i : Nat,
      (hashes.toFinset.filter (fun h => partOf P h = i)).card
        = (hashes.filter (fun h => partOf P h = i)).length := by
    intro i
    rw [hfin i]
    exact List.toFinset_card_of_nodup (hnd.filter _)
  have hoff : ∀ h : Hash128,
      (offsetsOf true alpha ((scatter P hashes).map List.length)).getD (partOf P h) 0
        = ∑ j ∈ Finset.range (partOf P h),
            (hashes.toFinset.filter (fun y => partOf P y = j)).card := by
    intro h
    have hlt : partOf P h < ((scatter P hashes).map List.length).length := by
      rw [List.length_map, scatter_length]
      exact partOf_lt hP h
    rw [offsetsOf_getD _ _ _ _ hlt]
    refine Finset.sum_congr rfl (fun j hj => ?_)
    have hjP : j < P := lt_trans (Finset.mem_range.mp hj) (partOf_lt hP h)
    rw [sizingWeight, if_pos rfl, getD_map_length, scatter_getD P hashes j hjP,
      hcard j]
  have htile := tiling_image_eq hashes.toFinset P (partOf P) f
    (fun x _ => partOf_lt hP x)
    (fun i hi => by rw [hcard i]; exact hbij i hi)
  have heqon : ∀ h ∈ hashes.toFinset,
      partitioned_position P
          (offsetsOf true alpha ((scatter P hashes).map List.length)) f h
        = (∑ j ∈ Finset.range (partOf P h),
            (hashes.toFinset.filter (fun y => partOf P y = j)).card)
            + f (partOf P h) h := by
    intro h _
    rw [partitioned_position, hoff h]
  have himg : Finset.image
      (partitioned_position P
        (offsetsOf true alpha ((scatter P hashes).map List.length)) f)
      hashes.toFinset
      = Finset.range hashes.length := by
    rw [Finset.image_congr heqon, htile, List.toFinset_card_of_nodup hnd]
  refine ⟨himg, ?_⟩
  apply Finset.card_image_iff.mp
  rw [himg, Finset.card_range, List.toFinset_card_of_nodup hnd]

/-- Witness for C1: one key, one partition, the identically-zero
partition-local position. -/
theorem partitioned_minimal_bijection_witness :
    Finset.image
        (partitioned_position 1
          (offsetsOf true 1 ((scatter 1 [⟨0, 0, 0⟩]).map List.length))
          (fun _ _ => 0))
        ([⟨0, 0, 0⟩] : List Hash128).toFinset
      = Finset.range 1
    ∧ Set.InjOn
        (partitioned_position 1
          (offsetsOf true 1 ((scatter 1 [⟨0, 0, 0⟩]).map List.length))
          (fun _ _ => 0))
        ([⟨0, 0, 0⟩] : List Hash128).toFinset :=
  partitioned_minimal_bijection 1 1 [⟨0, 0, 0⟩] (fun _ _ => 0)
    (by decide) (by decide) (by decide)

/-! ### Thread model lemmas -/

/-- Fuel arithmetic for the thread split: `T` chunks of `ceil(P/T)` cover
`P` indices. -/
theorem le_threads_mul_chunk (P T : Nat) (hT : 1 ≤ T) :
    P ≤ T * ((P + T - 1) / T) := by
  have hdm := Nat.div_add_mod (P + T - 1) T
  have hmod : (P + T - 1) % T < T := Nat.mod_lt _ (by omega)
  omega

/-- An index not covered by any of the ranges keeps its initial builder. -/
theorem foldl_runRange_not_covered {β : Type} (build : Nat → β)
    (rs : List (Nat × Nat)) (s : Nat → β) (j : Nat)
    (hnc : ∀ r ∈ rs, ¬(r.1 ≤ j ∧ j < r.2)) :
    (rs.foldl (fun bs r => runRange build r bs) s) j = s j := by
  induction rs generalizing s with
  | nil => rfl
  | cons r rest ih =>
    rw [List.foldl_cons, ih _ (fun q hq => hnc q (List.mem_cons_of_mem r hq))]
    rw [runRange, if_neg (hnc r (List.mem_cons_self r rest))]

/-- An index covered by some range ends up holding the builder built from
its own partition, no matter how ranges overlap: every covering write
stores the same value. -/
theorem foldl_runRange_covered {β : Type} (build : Nat → β)
    (rs : List (Nat × Nat)) (s : Nat → β) (j : Nat)
    (hc : ∃ r ∈ rs, r.1 ≤ j ∧ j < r.2) :
    (rs.foldl (fun bs r => runRange build r bs) s) j = build j := by
  induction rs generalizing s with
  | nil => exact absurd hc (by simp)
  | cons r rest ih =>
    rw [List.foldl_cons]
    by_cases hrest : ∃ q ∈ rest, q.1 ≤ j ∧ j < q.2
    · exact ih _ hrest
    · have hr : r.1 ≤ j ∧ j < r.2 := by
        rcases hc with ⟨q, hq, hcov⟩
        rcases List.mem_cons.mp hq with rfl | hq'
        · exact hcov
        · exact absurd ⟨q, hq', hcov⟩ hrest
      rw [foldl_runRange_not_covered build rest _ j
        (fun q hq => fun hcov => hrest ⟨q, hq, hcov⟩)]
      rw [runRange, if_pos hr]

/-- Every index below `P` is covered by one of the spawned thread ranges,
provided the chunks reach `P`. -/
theorem threadRanges_cover (npt P : Nat) :
    ∀ (T b j : Nat), b ≤ j → j < P → j < b + T * npt →
      ∃ r ∈ threadRanges npt P T b, r.1 ≤ j ∧ j < r.2 := by
  intro T
  induction T with
  | zero => intro b j hb hjP hfuel; omega
  | succ T ih =>
    intro b j hb hjP hfuel
    by_cases hfirst : j < b + npt
    · refine ⟨(b, min (b + npt) P), List.mem_cons_self _ _, hb, ?_⟩
      exact lt_min hfirst hjP
    · have hbnpt : b + npt ≤ j := Nat.le_of_not_lt hfirst
      have hmin : min (b + npt) P = b + npt := Nat.min_eq_left (by omega)
      obtain ⟨r, hr, hcov⟩ := ih (min (b + npt) P) j (by omega) hjP (by
        rw [hmin]
        have : b + (T + 1) * npt = b + npt + T * npt := by ring
        omega)
      exact ⟨r, List.mem_cons_of_mem _ hr, hcov⟩

/-- Last-write-wins for the sequential per-index updates: any index that
occurs in the list ends up holding its own built value. -/
theorem foldl_pointwise_covered {β : Type} (build : Nat → β) :
    ∀ (l : List Nat) (s : Nat → β) (j : Nat), j ∈ l →
      (l.foldl (fun bs i => fun k => if k = i then build i else bs k) s) j
        = build j := by
  intro l
  induction l with
  | nil => intro s j h; cases h
  | cons a t ih =>
    intro s j hmem
    rw [List.foldl_cons]
    by_cases hrest : j ∈ t
    · exact ih _ j hrest
    · have hja : j = a := by
        rcases List.mem_cons.mp hmem with h | h
        · exact h
        · exact absurd h hrest
      have hpreserve : ∀ (s0 : Nat → β) (l2 : List Nat), j ∉ l2 →
          (l2.foldl (fun bs i => fun k => if k = i then build i else bs k) s0) j
            = s0 j := by
        intro s0 l2
        induction l2 generalizing s0 with
        | nil => intro _; rfl
        | cons b t2 iht =>
          intro hnot
          rw [List.foldl_cons, iht _ (fun hm => hnot (List.mem_cons_of_mem b hm))]
          refine if_neg (fun hjb => hnot ?_)
          rw [hjb]
          exact List.mem_cons_self b t2
      rw [hpreserve _ t hrest]
      subst hja
      exact if_pos rfl

/-- The sequential path also writes `build j` at every `j < P`. -/
theorem build_partitions_sequential_eq {β : Type} (build : Nat → β)
    (P : Nat) (s : Nat → β) (j : Nat) (hj : j < P) :
    build_partitions_sequential build P s j = build j := by
  rw [build_partitions_sequential]
  exact foldl_pointwise_covered build (List.range P) s j (List.mem_range.mpr hj)

/-- C6: the result of `build_partitions` at every partition index is the
builder built from that partition alone, for every thread count at least
1 and any initial builders array: two runs with different thread counts
(and even different initial arrays) agree everywhere below `P`, so the
per-partition builders, and hence the offsets and query results assembled
from them, are independent of `num_threads`. -/
theorem build_partitions_thread_invariant {β : Type} (build : Nat → β)
    (P T1 T2 : Nat) (b1 b2 : Nat → β) (hT1 : 1 ≤ T1) (hT2 : 1 ≤ T2)
    (j : Nat) (hj : j < P) :
    build_partitions build P T1 b1 j = build j
    ∧ build_partitions build P T1 b1 j = build_partitions build P T2 b2 j := by
  have hmain : ∀ (T : Nat), 1 ≤ T → ∀ (s : Nat → β),
      build_partitions build P T s j = build j := by
    intro T hT s
    rw [build_partitions]
    by_cases hpar : 1 < T
    · rw [if_pos hpar, build_partitions_parallel]
      refine foldl_runRange_covered build _ s j ?_
      refine threadRanges_cover ((P + T - 1) / T) P T 0 j (Nat.zero_le j) hj ?_
      have := le_threads_mul_chunk P T hT
      omega
    · rw [if_neg hpar]
      exact build_partitions_sequential_eq build P s j hj
  refine ⟨hmain T1 hT1 b1, ?_⟩
  rw [hmain T1 hT1 b1, hmain T2 hT2 b2]

/-- Witness for C6: three partitions built with one and with two threads
agree at index 2 and equal the directly-built value. -/
theorem build_partitions_thread_invariant_witness :
    build_partitions (fun i => i + 10) 3 1 (fun _ => 99) 2 = 2 + 10
    ∧ build_partitions (fun i => i + 10) 3 1 (fun _ => 99) 2
        = build_partitions (fun i => i + 10) 3 2 (fun _ => 7) 2 :=
  build_partitions_thread_invariant (fun i => i + 10) 3 1 2
    (fun _ => 99) (fun _ => 7) (by decide) (by decide) 2 (by decide)

/-- Closed form of the spawn loop: thread `i` receives the clamped range
from `i * npt` to `(i + 1) * npt`. -/
theorem threadRanges_eq_map (npt P : Nat) :
    ∀ (T b : Nat), b ≤ P →
      threadRanges npt P T b
        = (List.range T).map
            (fun i => (min (b + i * npt) P, min (b + (i + 1) * npt) P)) := by
  intro T
  induction T with
  | zero => intro b _; rfl
  | succ T ih =>
    intro b hb
    rw [show threadRanges npt P (T + 1) b
        = (b, min (b + npt) P) :: threadRanges npt P T (min (b + npt) P) from rfl]
    rw [ih (min (b + npt) P) (min_le_right _ _)]
    rw [List.range_succ_eq_map, List.map_cons, List.map_map]
    congr 1
    · rw [show b + 0 * npt = b by ring, show b + 1 * npt = b + npt by ring,
        Nat.min_eq_left hb]
    · refine List.map_congr_left (fun i _ => ?_)
      rw [Function.comp_apply]
      have key : ∀ x : Nat, min (min (b + npt) P + x) P = min (b + npt + x) P := by
        intro x
        rcases Nat.le_total (b + npt) P with hle | hge
        · rw [Nat.min_eq_left hle]
        · rw [Nat.min_eq_right hge, Nat.min_eq_right (Nat.le_add_right P x),
            Nat.min_eq_right (by omega)]
      have h1 : b + npt + i * npt = b + (i + 1) * npt := by ring
      have h2 : b + npt + (i + 1) * npt = b + (i + 1 + 1) * npt := by ring
      rw [key (i * npt), key ((i + 1) * npt), h1, h2]

/-- The report accumulator `if (t > timings) timings = t`, started at 0,
is the fold of `max`. -/
theorem foldl_if_lt_eq_foldl_max (l : List ℚ) :
    ∀ a : ℚ, l.foldl (fun acc t => if acc < t then t else acc) a
      = l.foldl max a := by
  induction l with
  | nil => intro a; rfl
  | cons x t ih =>
    intro a
    rw [List.foldl_cons, List.foldl_cons, ← ih]
    congr 1
    rcases le_or_lt x a with h | h
    · rw [if_neg (not_lt.mpr h), max_eq_left h]
    · rw [if_pos h, max_eq_right h.le]

/-- The supremum over `range 1`. -/
theorem sup_range_one (f : Nat → ℚ) (h : (Finset.range 1).Nonempty) :
    Finset.sup' (Finset.range 1) h f = f 0 := by
  apply le_antisymm
  · refine Finset.sup'_le _ _ (fun i hi => ?_)
    have hi0 : i = 0 := by
      have := Finset.mem_range.mp hi
      omega
    rw [hi0]
  · exact Finset.le_sup' f (Finset.mem_range.mpr (by omega))

/-- Peeling the last thread off the supremum over `range (T + 1)`. -/
theorem sup_range_succ (f : Nat → ℚ) (T : Nat)
    (hT : (Finset.range T).Nonempty) (h1 : (Finset.range (T + 1)).Nonempty) :
    Finset.sup' (Finset.range (T + 1)) h1 f
      = Finset.sup' (Finset.range T) hT f ⊔ f T := by
  apply le_antisymm
  · refine Finset.sup'_le _ _ (fun i hi => ?_)
    have hiT : i < T + 1 := Finset.mem_range.mp hi
    rcases Nat.lt_or_ge i T with hlt | hge
    · exact le_sup_of_le_left (Finset.le_sup' f (Finset.mem_range.mpr hlt))
    · have hieq : i = T := by omega
      rw [hieq]
      exact le_sup_right
  · refine sup_le ?_ ?_
    · refine Finset.sup'_le _ _ (fun i hi => ?_)
      exact Finset.le_sup' f (Finset.mem_range.mpr
        (by have := Finset.mem_range.mp hi; omega))
    · exact Finset.le_sup' f (Finset.mem_range.mpr (by omega))

/-- Folding `max` from 0 over nonnegative values indexed by `range T` is
their supremum. -/
theorem foldl_max_map_range_eq_sup (f : Nat → ℚ) :
    ∀ T : Nat, (hT : 0 < T) → (∀ i, 0 ≤ f i) →
      ((List.range T).map f).foldl max 0
        = Finset.sup' (Finset.range T)
            (Finset.nonempty_range_iff.mpr (by omega)) f := by
  intro T
  induction T with
  | zero => intro hT _; exact absurd hT (lt_irrefl 0)
  | succ T ih =>
    intro _ hf
    rcases Nat.eq_zero_or_pos T with hT0 | hTpos
    · subst hT0
      rw [show List.range 1 = [0] from rfl, List.map_cons, List.map_nil,
        List.foldl_cons, List.foldl_nil, max_eq_right (hf 0), sup_range_one]
    · rw [List.range_succ, List.map_append, List.foldl_append, ih hTpos hf]
      rw [List.map_cons, List.map_nil, List.foldl_cons, List.foldl_nil]
      rw [sup_range_succ f T (show (Finset.range T).Nonempty from
        Finset.nonempty_range_iff.mpr (by omega))]

/-- C9: with the per-partition durations treated as given inputs, the
duration reported by `build_partitions` for either timing field equals
the maximum over the spawned threads of the sum of the durations of the
partitions that thread built; the sequential one-thread path is the
degenerate single-thread maximum. -/
theorem reported_timing_is_thread_max (d : Nat → ℚ) (P T : Nat)
    (hT : 0 < T) (hd : ∀ j, 0 ≤ d j) :
    reported_timing d P T
      = Finset.sup' (Finset.range T) (Finset.nonempty_range_iff.mpr (by omega))
          (fun i => ∑ j ∈ Finset.Ico (min (i * ((P + T - 1) / T)) P)
                        (min ((i + 1) * ((P + T - 1) / T)) P), d j) := by
  simp only [reported_timing]
  by_cases hpar : 1 < T
  · rw [if_pos hpar]
    rw [threadRanges_eq_map _ _ T 0 (Nat.zero_le P)]
    rw [List.map_map, foldl_if_lt_eq_foldl_max]
    rw [foldl_max_map_range_eq_sup
      ((fun r : Nat × Nat => ∑ j ∈ Finset.Ico r.1 r.2, d j) ∘ fun i =>
        ((0 + i * ((P + T - 1) / T)) ⊓ P, (0 + (i + 1) * ((P + T - 1) / T)) ⊓ P))
      T (by omega) (fun i => Finset.sum_nonneg (fun j _ => hd j))]
    refine Finset.sup'_congr _ rfl (fun i _ => ?_)
    rw [Function.comp_apply]
    rw [show (0 : Nat) + i * ((P + T - 1) / T) = i * ((P + T - 1) / T) by omega]
    rw [show (0 : Nat) + (i + 1) * ((P + T - 1) / T) = (i + 1) * ((P + T - 1) / T)
      by omega]
  · rw [if_neg hpar]
    have hT1 : T = 1 := by omega
    subst hT1
    rw [sup_range_one]
    rw [show (P + 1 - 1) / 1 = P by omega]
    rw [show min (0 * P) P = 0 by omega, show min (1 * P) P = P by omega]

/-- Witness for C9: three partitions of unit duration over two threads;
the first thread builds two partitions, so the reported value is 2. -/
theorem reported_timing_is_thread_max_witness :
    reported_timing (fun _ => 1) 3 2
      = Finset.sup' (Finset.range 2) (Finset.nonempty_range_iff.mpr (by omega))
          (fun i => ∑ j ∈ Finset.Ico (min (i * ((3 + 2 - 1) / 2)) 3)
                        (min ((i + 1) * ((3 + 2 - 1) / 2)) 3), (fun _ => (1 : ℚ)) j) :=
  reported_timing_is_thread_max (fun _ => 1) 3 2 (by decide)
    (fun j => by norm_num)

end PTHash
